import Mathlib

/- Verification of the point-cloud classification core of PCClassify
   (src/classifier.hpp and src/vendor/ethz/random-forest/node-gini.hpp)
   against its natural-language specification.

   Modelling conventions: C++ integer and index types are modelled with Nat,
   floating-point scalars with Rat (every property verified here depends only
   on ordered-field reasoning and on comparisons, not on rounding), and the
   external collaborators of the core (point files, the kd-tree, the
   classifier evaluator, the label lookup tables from labels.hpp, which is
   not part of the verified sources) are explicit parameters, exactly as
   they are template parameters or interface calls in the source. -/

namespace PCClassify

/-! ## Training sampler (getTrainingData, classifier.hpp:21-111) -/

/-- A training input file as seen by the getTrainingData file loop
(classifier.hpp:44-61). Only the facts that readPointSet yields a labelled
set and its spacing() matter for the skip, init-callback and resolution
behaviour modelled below. -/
structure TrainFile where
  hasLabels : Bool
  spacing : ℚ
deriving DecidableEq

/-- Number of init-callback invocations performed by the getTrainingData
file loop starting at file index i (classifier.hpp:44-61): a file without
labels is skipped (continue) before the init check is reached, and the init
call itself is guarded by the file index test i == 0. -/
def initCallsFrom : List TrainFile → ℕ → ℕ
  | [], _ => 0
  | f :: rest, i => (if f.hasLabels ∧ i = 0 then 1 else 0) + initCallsFrom rest (i + 1)

/-- Total number of init invocations of getTrainingData over a file list. -/
def initCallCount (files : List TrainFile) : ℕ := initCallsFrom files 0

/-- The startResolution values used by the successive non-skipped files
(classifier.hpp:47-57): a file with no labels is skipped; otherwise, when
the incoming startResolution equals the sentinel -1.0 it is replaced by the
current file's spacing(), and the (possibly updated) value seeds
computeScales for this file and is carried to the next file. -/
def resolutionsUsed : List TrainFile → ℚ → List ℚ
  | [], _ => []
  | f :: rest, sr =>
    if f.hasLabels then
      let sr2 := if sr = -1 then f.spacing else sr
      sr2 :: resolutionsUsed rest sr2
    else resolutionsUsed rest sr

/-- The value of the caller's startResolution variable after the
getTrainingData file loop (classifier.hpp:44-57): updated to the current
file's spacing() only when it holds the sentinel -1.0 at a non-skipped
file. -/
def finalResolution : List TrainFile → ℚ → ℚ
  | [], sr => sr
  | f :: rest, sr =>
    if f.hasLabels then
      finalResolution rest (if sr = -1 then f.spacing else sr)
    else finalResolution rest sr

/-- Number of candidates of training class g in a candidate list: the
count[] vector of classifier.hpp:63-79, one entry per (index, class) pair
pushed into idxes. -/
def countClass (g : ℕ) (idxes : List (ℕ × ℕ)) : ℕ :=
  idxes.countP (fun p => p.2 == g)

/-- The maximum value of size_t: the initialisation of samplesPerLabel
(classifier.hpp:81). -/
def SIZE_T_MAX : ℕ := 2 ^ 64 - 1

/-- samplesPerLabel (classifier.hpp:81-85): the minimum candidate count over
the non-empty classes, folded from SIZE_T_MAX over the label indices, then
capped by maxSamples. -/
def samplesPerLabel (numLabels maxSamples : ℕ) (idxes : List (ℕ × ℕ)) : ℕ :=
  min ((List.range numLabels).foldl
        (fun acc i =>
          if 0 < countClass i idxes then min (countClass i idxes) acc else acc)
        SIZE_T_MAX)
    maxSamples

/-- The sample-emission walk (classifier.hpp:94-101): walk the shuffled
candidate list; a candidate of class g is passed to storeFeatures exactly
when the class's emitted counter added[g] is still below the cap
samplesPerLabel, and the counter is then incremented. Returns the list of
(index, class) pairs passed to storeFeatures, in order. -/
def emitSamples (cap : ℕ) (added : ℕ → ℕ) : List (ℕ × ℕ) → List (ℕ × ℕ)
  | [] => []
  | p :: rest =>
    if added p.2 < cap then
      p :: emitSamples cap (fun c => if c = p.2 then added p.2 + 1 else added c) rest
    else emitSamples cap added rest

/-- Unfolding of countClass over a cons cell. -/
theorem countClass_cons (g : ℕ) (p : ℕ × ℕ) (l : List (ℕ × ℕ)) :
    countClass g (p :: l) = countClass g l + (if p.2 = g then 1 else 0) := by
  simp [countClass, List.countP_cons]

/-- Running invariant of the emission walk: starting from an arbitrary
counter state, the number of class-c samples emitted over the remaining list
is what is still missing from the cap, clipped by the remaining supply. -/
theorem emitSamples_countClass (cap : ℕ) :
    ∀ (l : List (ℕ × ℕ)) (added : ℕ → ℕ) (c : ℕ),
      countClass c (emitSamples cap added l)
        = min (countClass c l + added c) cap - added c := by
  intro l
  induction l with
  | nil => intro added c; simp [emitSamples, countClass]
  | cons p rest ih =>
    intro added c
    by_cases hlt : added p.2 < cap
    · have hstep : emitSamples cap added (p :: rest)
          = p :: emitSamples cap (fun d => if d = p.2 then added p.2 + 1 else added d)
              rest := by
        simp only [emitSamples, if_pos hlt]
      rw [hstep, countClass_cons, countClass_cons,
        ih (fun d => if d = p.2 then added p.2 + 1 else added d) c]
      by_cases hc : p.2 = c
      · subst hc
        simp only [eq_self_iff_true, if_true]
        omega
      · have hcp : c ≠ p.2 := fun h => hc h.symm
        simp only [if_neg hc, if_neg hcp]
        omega
    · have hstep : emitSamples cap added (p :: rest) = emitSamples cap added rest := by
        simp only [emitSamples, if_neg hlt]
      rw [hstep, ih added c, countClass_cons]
      by_cases hc : p.2 = c
      · subst hc
        simp only [eq_self_iff_true, if_true]
        omega
      · simp only [if_neg hc]
        omega

/-- C4: for every processed file, with samplesPerLabel defined as
min(min over non-empty classes of count[c], maxSamples), the training
sampler invokes store at most samplesPerLabel times per class, and exactly
min(count[c], samplesPerLabel) times for each class c (in particular each
non-empty one), for every shuffle (permutation) of the candidate list. -/
theorem C4_sampler_per_class_quota
    (idxes shuffled : List (ℕ × ℕ)) (numLabels maxSamples : ℕ)
    (hperm : shuffled.Perm idxes) (c : ℕ) :
    countClass c
        (emitSamples (samplesPerLabel numLabels maxSamples idxes) (fun _ => 0) shuffled)
      = min (countClass c idxes) (samplesPerLabel numLabels maxSamples idxes)
    ∧ countClass c
        (emitSamples (samplesPerLabel numLabels maxSamples idxes) (fun _ => 0) shuffled)
      ≤ samplesPerLabel numLabels maxSamples idxes := by
  have hcount : countClass c shuffled = countClass c idxes :=
    List.Perm.countP_eq _ hperm
  have h := emitSamples_countClass (samplesPerLabel numLabels maxSamples idxes)
      shuffled (fun _ => 0) c
  simp only [Nat.add_zero, Nat.sub_zero] at h
  rw [h, hcount]
  exact ⟨rfl, min_le_right _ _⟩

/-- C4 witness: a concrete candidate list with classes 0 (two candidates)
and 1 (one candidate), maxSamples = 5, and a nontrivial shuffle. -/
theorem C4_sampler_per_class_quota_witness :
    countClass 0
        (emitSamples (samplesPerLabel 2 5 [(0, 0), (1, 0), (2, 1)]) (fun _ => 0)
          [(2, 1), (0, 0), (1, 0)])
      = min (countClass 0 [(0, 0), (1, 0), (2, 1)])
          (samplesPerLabel 2 5 [(0, 0), (1, 0), (2, 1)])
    ∧ countClass 0
        (emitSamples (samplesPerLabel 2 5 [(0, 0), (1, 0), (2, 1)]) (fun _ => 0)
          [(2, 1), (0, 0), (1, 0)])
      ≤ samplesPerLabel 2 5 [(0, 0), (1, 0), (2, 1)] :=
  C4_sampler_per_class_quota [(0, 0), (1, 0), (2, 1)] [(2, 1), (0, 0), (1, 0)]
    2 5 (by decide) 0

/-- C2: evaluating the getTrainingData file loop on a list whose first file
has no labels and whose second does. A non-skipped file exists, yet the init
callback is never invoked, because the source guards init with the file
index test i == 0 (classifier.hpp:61) instead of the first-non-skipped
condition, and file 0 never reaches that line (it hits continue first). -/
theorem C2_init_skipped_first_file :
    initCallCount [⟨false, 1⟩, ⟨true, 1⟩] = 0
    ∧ List.filter (fun f => f.hasLabels) [TrainFile.mk false 1, TrainFile.mk true 1] ≠ []
    ∧ initCallCount [⟨true, 1⟩, ⟨true, 1⟩] = 1 := by
  refine ⟨rfl, ?_, rfl⟩
  simp [List.filter]

/-- C3 counterexample: with startResolution = 0 on entry (a value that is
≤ 0 but is not the sentinel -1.0) and a single labelled file of spacing 5,
the loop keeps 0 and never derives the file's spacing, because
classifier.hpp:52 tests == -1.0, not ≤ 0. The claim as stated requires the
resolution used for the file to be its spacing 5. -/
theorem C3_counterexample :
    resolutionsUsed [⟨true, 5⟩] 0 = [0]
    ∧ finalResolution [⟨true, 5⟩] 0 = 0
    ∧ ((0 : ℚ) ≤ 0 ∧ (0 : ℚ) ≠ 5) := by
  have h0 : ((0 : ℚ) = -1) = False := by norm_num
  refine ⟨?_, ?_, le_refl 0, by norm_num⟩
  · simp [resolutionsUsed, h0]
  · simp [finalResolution, h0]

/-- Once startResolution holds a non-sentinel value it is carried unchanged
through every later file (classifier.hpp:52-55). -/
theorem resolutionsUsed_of_ne_sentinel (files : List TrainFile) (sr : ℚ)
    (h : sr ≠ -1) :
    resolutionsUsed files sr
      = List.replicate (files.filter (fun f => f.hasLabels)).length sr := by
  induction files with
  | nil => simp [resolutionsUsed]
  | cons f rest ih =>
    by_cases hf : f.hasLabels
    · simp only [resolutionsUsed, hf, if_true, if_neg h, List.filter_cons, hf,
        List.length_cons, List.replicate_succ]
      exact congrArg _ ih
    · have hf2 : f.hasLabels = false := by simpa using hf
      simp only [resolutionsUsed, hf2, Bool.false_eq_true, if_false,
        List.filter_cons, hf2]
      exact ih

/-- C3 (amended): with the sentinel startResolution = -1.0 on entry,
processing the first non-skipped file sets startResolution to that file's
spacing(), and that value (being positive, hence not the sentinel) is kept,
not re-derived, as the resolution used for every subsequent non-skipped
file. -/
theorem C3_sentinel_resolution (files : List TrainFile) (f : TrainFile)
    (rest : List TrainFile)
    (hsplit : files.filter (fun g => g.hasLabels) = f :: rest)
    (hpos : 0 < f.spacing) :
    resolutionsUsed files (-1)
      = List.replicate (files.filter (fun g => g.hasLabels)).length f.spacing := by
  have hns : f.spacing ≠ -1 := by
    intro h
    rw [h] at hpos
    norm_num at hpos
  induction files with
  | nil => simp at hsplit
  | cons g tail ih =>
    by_cases hg : g.hasLabels
    · have : g = f := by
        simp only [List.filter_cons, hg, if_true] at hsplit
        exact (List.cons_eq_cons.mp hsplit).1
      subst this
      simp only [resolutionsUsed, hg, if_true, if_pos rfl, List.filter_cons, hg,
        List.length_cons, List.replicate_succ]
      refine congrArg _ ?_
      have := resolutionsUsed_of_ne_sentinel tail g.spacing hns
      simp only [List.filter_cons, hg, if_true, List.cons_eq_cons] at hsplit
      exact this
    · have hg2 : g.hasLabels = false := by simpa using hg
      simp only [List.filter_cons, hg2] at hsplit
      simp only [resolutionsUsed, hg2, Bool.false_eq_true, if_false,
        List.filter_cons, hg2]
      exact ih hsplit

/-- C3 amended-claim witness: a skipped file followed by two labelled files;
the first labelled file's spacing 2 is derived and reused for the second
labelled file (spacing 7 is never consulted). -/
theorem C3_sentinel_resolution_witness :
    resolutionsUsed [⟨false, 3⟩, ⟨true, 2⟩, ⟨true, 7⟩] (-1)
      = List.replicate
          ((List.filter (fun g => g.hasLabels)
            [TrainFile.mk false 3, TrainFile.mk true 2, TrainFile.mk true 7]).length)
          2 :=
  C3_sentinel_resolution _ ⟨true, 2⟩ [⟨true, 7⟩] (by simp [List.filter]) (by norm_num)

/-! ## Label writeback (classifyData, classifier.hpp:357-404) -/

/-- A Label record (spec §3): name, ASPRS code, color. Labels come from
labels.hpp (getTrainingLabels), outside the verified sources; the verified
code reads only getAsprsCode() and getColor(), so the label set is a
parameter below. ASPRS codes are u8, modelled with Nat. -/
structure Label where
  name : String
  asprsCode : ℕ
  color : ℕ × ℕ × ℕ
deriving DecidableEq

/-- Default-constructed Label: the fallback of out-of-range lookups in the
shallow embedding (the C++ indexing has no fallback; theorems that need the
lookup to be meaningful carry in-range hypotheses). -/
def defaultLabel : Label := ⟨"", 0, (0, 0, 0)⟩

/-- The PointSet state read and written by the label writeback stage.
Modelled from the spec §3 (the PointSet class lives in point_io.hpp, outside
the verified sources): labels[] is the surface label array, colors[] the
surface color array, pointMap[i] the base representative of surface point i,
and baseLabels is base->labels as filled by the inference stage. -/
structure WritebackState where
  labels : List ℕ
  colors : List (ℕ × ℕ × ℕ)
  pointMap : List ℕ
  baseLabels : List ℕ
deriving DecidableEq

/-- pointSet.count(): the number of surface points; pointMap has one entry
per surface point (spec §3). -/
def WritebackState.count (ps : WritebackState) : ℕ := ps.pointMap.length

/-- pointSet.hasLabels(): the surface labels[] array is non-empty. Modelled
from the spec (point_io.hpp is outside the verified sources; spec §3 and the
claims equate it with a non-empty labels[] array). -/
def WritebackState.hasLabels (ps : WritebackState) : Bool := !ps.labels.isEmpty

/-- The skipMap lookup (classifier.hpp:358-362): a bit is set for every
skip entry between 0 and 255, and the writeback consults the bit of the
candidate label's ASPRS code (a u8, hence modelled with Nat). -/
def skipMapped (skip : List ℕ) (c : ℕ) : Bool :=
  (skip.filter (fun s => s ≤ 255)).contains c

section Writeback

variable (labelDefs : List Label) (t2a : ℕ → ℕ) (lu : ℕ)
variable (useColors unclassifiedOnly : Bool) (skip : List ℕ) (hasL : Bool)
variable (pointMap baseLabels : List ℕ)

/-- The Label consulted for surface point i:
labels[pointSet.base->labels[pointSet.pointMap[i]]]
(classifier.hpp:370-373). -/
def labelFor (i : ℕ) : Label :=
  labelDefs.getD (baseLabels.getD (pointMap.getD i 0) 0) defaultLabel

/-- The update decision for surface point i (classifier.hpp:379-387), as a
function of the current surface label value x at slot i: update starts
true, is cleared when unclassifiedOnly is set, the surface has labels and
the point carries a label other than LABEL_UNCLASSIFIED (the labels.hpp
constant, parameter lu), and is cleared when the predicted label's ASPRS
code is in the skip set. -/
def updVal (i x : ℕ) : Bool :=
  !(unclassifiedOnly && hasL && (x != lu))
    && !(skipMapped skip (labelFor labelDefs pointMap baseLabels i).asprsCode)

/-- One iteration of the writeback loop body for surface point i
(classifier.hpp:369-403), acting on the (labels, colors) arrays: if
updating, either the color (color mode) or the ASPRS code (default) is
written at slot i; if not updating while the surface has labels, the
training code at slot i is translated back to ASPRS via
getTrain2AsprsCodes() (parameter t2a). Each iteration reads and writes only
slot i, so the OpenMP parallel-for of the source is equivalent to this
left-to-right pass. -/
def writebackStep (st : List ℕ × List (ℕ × ℕ × ℕ)) (i : ℕ) :
    List ℕ × List (ℕ × ℕ × ℕ) :=
  let label := labelFor labelDefs pointMap baseLabels i
  if updVal labelDefs lu unclassifiedOnly skip hasL pointMap baseLabels i
      (st.1.getD i 0) then
    if useColors then (st.1, st.2.set i label.color)
    else (st.1.set i label.asprsCode, st.2)
  else if hasL then (st.1.set i (t2a (st.1.getD i 0)), st.2)
  else st

/-- The value left in labels[k] by the writeback loop, as a function of the
incoming value x. -/
def labelOutVal (k x : ℕ) : ℕ :=
  if updVal labelDefs lu unclassifiedOnly skip hasL pointMap baseLabels k x then
    if useColors then x else (labelFor labelDefs pointMap baseLabels k).asprsCode
  else if hasL then t2a x else x

/-- The value left in colors[k] by the writeback loop, as a function of the
incoming label value x and color y. -/
def colorOutVal (k x : ℕ) (y : ℕ × ℕ × ℕ) : ℕ × ℕ × ℕ :=
  if updVal labelDefs lu unclassifiedOnly skip hasL pointMap baseLabels k x
      && useColors then
    (labelFor labelDefs pointMap baseLabels k).color
  else y

end Writeback

/-- The label writeback stage of classifyData (classifier.hpp:357-404): the
resize of the surface labels[] (filling with 0) when colors are not
requested and the surface has no labels, followed by the per-point loop
over all surface points. The regularization stage that runs before it
writes only base->labels, which this model takes as input in
ps.baseLabels. -/
def classifyWriteback (labelDefs : List Label) (t2a : ℕ → ℕ) (lu : ℕ)
    (useColors unclassifiedOnly : Bool) (skip : List ℕ)
    (ps : WritebackState) : WritebackState :=
  let ps1 : WritebackState :=
    if !useColors && ps.labels.isEmpty then
      { ps with labels := List.replicate ps.count 0 }
    else ps
  let hasL := ps1.hasLabels
  let r := (List.range ps1.count).foldl
      (writebackStep labelDefs t2a lu useColors unclassifiedOnly skip hasL
        ps1.pointMap ps1.baseLabels)
      (ps1.labels, ps1.colors)
  { ps1 with labels := r.1, colors := r.2 }

/-- Setting a slot to the value it already holds leaves a list unchanged
(also when the index is out of range). -/
theorem set_getElem?_getD_self {α : Type} (l : List α) (i : ℕ) (d : α) :
    l.set i (l[i]?.getD d) = l := by
  apply List.ext_getElem?
  intro k
  rw [List.getElem?_set]
  by_cases hik : i = k
  · subst hik
    by_cases hlt : i < l.length
    · simp only [if_pos hlt, eq_self_iff_true, if_true]
      rw [List.getElem?_eq_getElem hlt]
      rfl
    · simp only [if_neg hlt, eq_self_iff_true, if_true]
      rw [eq_comm, List.getElem?_eq_none_iff]
      omega
  · simp only [if_neg hik]

/-- Setting a slot to the value it already holds leaves a list unchanged
(also when the index is out of range). -/
theorem set_getD_self {α : Type} (l : List α) (i : ℕ) (d : α) :
    l.set i (l.getD i d) = l := by
  apply List.ext_getElem?
  intro k
  rw [List.getElem?_set]
  by_cases hik : i = k
  · subst hik
    by_cases hlt : i < l.length
    · simp only [if_pos hlt, eq_self_iff_true, if_true]
      rw [List.getD_eq_getElem?_getD, List.getElem?_eq_getElem hlt]
      rfl
    · simp only [if_neg hlt, eq_self_iff_true, if_true]
      rw [eq_comm, List.getElem?_eq_none_iff]
      omega
  · simp only [if_neg hik]

/-- Every branch of the writeback loop body amounts to rewriting slot i of
both arrays with the corresponding out-value of its current contents. -/
theorem writebackStep_eq (labelDefs : List Label) (t2a : ℕ → ℕ) (lu : ℕ)
    (useColors unclassifiedOnly : Bool) (skip : List ℕ) (hasL : Bool)
    (pointMap baseLabels : List ℕ)
    (st : List ℕ × List (ℕ × ℕ × ℕ)) (i : ℕ) :
    writebackStep labelDefs t2a lu useColors unclassifiedOnly skip hasL
        pointMap baseLabels st i
      = (st.1.set i
          (labelOutVal labelDefs t2a lu useColors unclassifiedOnly skip hasL
            pointMap baseLabels i (st.1.getD i 0)),
         st.2.set i
          (colorOutVal labelDefs lu useColors unclassifiedOnly skip hasL
            pointMap baseLabels i (st.1.getD i 0) (st.2.getD i 0))) := by
  unfold writebackStep labelOutVal colorOutVal
  set u := updVal labelDefs lu unclassifiedOnly skip hasL pointMap baseLabels i
    (st.1.getD i 0) with hu
  cases u <;> cases hasL <;> cases useColors <;>
    simp [set_getD_self, set_getElem?_getD_self]

/-- Slot-wise characterization of the writeback loop over surface points
0..n-1: lengths are preserved, slot k < n of each array holds the out-value
of its incoming contents, and slots at or beyond n are untouched. -/
theorem writeback_fold_spec (labelDefs : List Label) (t2a : ℕ → ℕ) (lu : ℕ)
    (useColors unclassifiedOnly : Bool) (skip : List ℕ) (hasL : Bool)
    (pointMap baseLabels : List ℕ) :
    ∀ (n : ℕ) (l0 : List ℕ) (c0 : List (ℕ × ℕ × ℕ)),
      ((List.range n).foldl
        (writebackStep labelDefs t2a lu useColors unclassifiedOnly skip hasL
          pointMap baseLabels) (l0, c0)).1.length = l0.length
      ∧ ((List.range n).foldl
        (writebackStep labelDefs t2a lu useColors unclassifiedOnly skip hasL
          pointMap baseLabels) (l0, c0)).2.length = c0.length
      ∧ (∀ k, ((List.range n).foldl
          (writebackStep labelDefs t2a lu useColors unclassifiedOnly skip hasL
            pointMap baseLabels) (l0, c0)).1[k]?
          = if k < n ∧ k < l0.length then
              some (labelOutVal labelDefs t2a lu useColors unclassifiedOnly
                skip hasL pointMap baseLabels k (l0.getD k 0))
            else l0[k]?)
      ∧ (∀ k, ((List.range n).foldl
          (writebackStep labelDefs t2a lu useColors unclassifiedOnly skip hasL
            pointMap baseLabels) (l0, c0)).2[k]?
          = if k < n ∧ k < c0.length then
              some (colorOutVal labelDefs lu useColors unclassifiedOnly skip
                hasL pointMap baseLabels k (l0.getD k 0) (c0.getD k 0))
            else c0[k]?) := by
  intro n
  induction n with
  | zero =>
    intro l0 c0
    refine ⟨rfl, rfl, ?_, ?_⟩ <;> intro k <;> simp
  | succ n ih =>
    intro l0 c0
    obtain ⟨hlen1, hlen2, hlab, hcol⟩ := ih l0 c0
    set r := (List.range n).foldl
      (writebackStep labelDefs t2a lu useColors unclassifiedOnly skip hasL
        pointMap baseLabels) (l0, c0) with hr
    have hfold : (List.range (n + 1)).foldl
        (writebackStep labelDefs t2a lu useColors unclassifiedOnly skip hasL
          pointMap baseLabels) (l0, c0)
        = writebackStep labelDefs t2a lu useColors unclassifiedOnly skip hasL
            pointMap baseLabels r n := by
      rw [List.range_succ, List.foldl_append, List.foldl_cons, List.foldl_nil, hr]
    have hxn : r.1[n]? = l0[n]? := by
      rw [hlab n]
      simp
    have hyn : r.2[n]? = c0[n]? := by
      rw [hcol n]
      simp
    have hx : r.1.getD n 0 = l0.getD n 0 := by
      rw [List.getD_eq_getElem?_getD, List.getD_eq_getElem?_getD, hxn]
    have hy : r.2.getD n 0 = c0.getD n 0 := by
      rw [List.getD_eq_getElem?_getD, List.getD_eq_getElem?_getD, hyn]
    rw [hfold, writebackStep_eq, hx, hy]
    refine ⟨by simp [hlen1], by simp [hlen2], ?_, ?_⟩
    · intro k
      rw [List.getElem?_set, hlen1]
      by_cases hnk : n = k
      · subst hnk
        by_cases hnl : n < l0.length
        · simp only [if_pos hnl, eq_self_iff_true, if_true]
          rw [if_pos ⟨Nat.lt_succ_self n, hnl⟩]
        · simp only [if_neg hnl, eq_self_iff_true, if_true]
          rw [if_neg (by omega), eq_comm, List.getElem?_eq_none_iff]
          omega
      · simp only [if_neg hnk]
        rw [hlab k]
        have : (k < n ∧ k < l0.length) ↔ (k < n + 1 ∧ k < l0.length) := by omega
        by_cases hk : k < n ∧ k < l0.length
        · rw [if_pos hk, if_pos (this.mp hk)]
        · rw [if_neg hk, if_neg (fun h => hk (this.mpr h))]
    · intro k
      rw [List.getElem?_set, hlen2]
      by_cases hnk : n = k
      · subst hnk
        by_cases hnl : n < c0.length
        · simp only [if_pos hnl, eq_self_iff_true, if_true]
          rw [if_pos ⟨Nat.lt_succ_self n, hnl⟩]
        · simp only [if_neg hnl, eq_self_iff_true, if_true]
          rw [if_neg (by omega), eq_comm, List.getElem?_eq_none_iff]
          omega
      · simp only [if_neg hnk]
        rw [hcol k]
        have : (k < n ∧ k < c0.length) ↔ (k < n + 1 ∧ k < c0.length) := by omega
        by_cases hk : k < n ∧ k < c0.length
        · rw [if_pos hk, if_pos (this.mp hk)]
        · rw [if_neg hk, if_neg (fun h => hk (this.mpr h))]

/-- When the surface has labels and every surface point's update decision
comes out false, the writeback leaves labels[i] = train2asprs[labels[i]]
for every i: the array is translated back to ASPRS, not preserved
(classifier.hpp:400-403). -/
theorem writeback_noupdate_labels (labelDefs : List Label) (t2a : ℕ → ℕ)
    (lu : ℕ) (useColors unclassifiedOnly : Bool) (skip : List ℕ)
    (ps : WritebackState)
    (hne : ps.labels ≠ [])
    (hlen : ps.labels.length = ps.count)
    (hupd : ∀ k, k < ps.count →
      updVal labelDefs lu unclassifiedOnly skip true ps.pointMap ps.baseLabels
        k (ps.labels.getD k 0) = false) :
    (classifyWriteback labelDefs t2a lu useColors unclassifiedOnly skip
        ps).labels
      = ps.labels.map t2a := by
  have hemp : ps.labels.isEmpty = false := by
    cases h : ps.labels
    · exact absurd h hne
    · rfl
  obtain ⟨-, -, hlab, -⟩ := writeback_fold_spec labelDefs t2a lu useColors
    unclassifiedOnly skip true ps.pointMap ps.baseLabels ps.count ps.labels
    ps.colors
  unfold classifyWriteback
  simp only [hemp, Bool.and_false, Bool.false_eq_true, if_false,
    WritebackState.hasLabels, Bool.not_false]
  apply List.ext_getElem?
  intro k
  rw [hlab k, List.getElem?_map]
  by_cases hk : k < ps.count
  · have hkl : k < ps.labels.length := by rw [hlen]; exact hk
    rw [if_pos ⟨hk, hkl⟩]
    have hout : labelOutVal labelDefs t2a lu useColors unclassifiedOnly skip
        true ps.pointMap ps.baseLabels k (ps.labels.getD k 0)
        = t2a (ps.labels.getD k 0) := by
      unfold labelOutVal
      rw [hupd k hk]
      simp
    rw [hout, List.getD_eq_getElem?_getD, List.getElem?_eq_getElem hkl]
    rfl
  · have hkl : ¬ k < ps.labels.length := by rw [hlen]; exact hk
    rw [if_neg (fun h => hk h.1),
      List.getElem?_eq_none_iff.mpr (by omega)]
    rfl

/-- C5 counterexample: a surface with one point whose (training-code) label
is 1, a label set whose only ASPRS code 2 is in the skip set, and the
training-to-ASPRS table modelled from the spec glossary (ground = ASPRS 2,
training codes are the compact indices 0..L-1, a disjoint space). classifyData
rewrites labels[0] from 1 to train2asprs[1] = 6 (classifier.hpp:400-403), so
the array is not bit-identical to its input even though every ASPRS code of
the label set is skipped. -/
theorem C5_counterexample :
    (∀ ld ∈ [Label.mk "ground" 2 (67, 103, 21)], ld.asprsCode ∈ [2]
      ∧ ld.asprsCode ≤ 255)
    ∧ (WritebackState.mk [1] [(0, 0, 0)] [0] [0]).labels ≠ []
    ∧ (classifyWriteback [Label.mk "ground" 2 (67, 103, 21)]
        (fun t => if t = 0 then 2 else if t = 1 then 6 else 0) 0 false false
        [2] (WritebackState.mk [1] [(0, 0, 0)] [0] [0])).labels
      ≠ (WritebackState.mk [1] [(0, 0, 0)] [0] [0]).labels := by
  refine ⟨by decide, by decide, ?_⟩
  decide

/-- C5 (amended): with skip containing every ASPRS code of the label set
(all codes being u8), no surface point is updated, and classifyData instead
rewrites every surface label entry through the training-to-ASPRS table:
labels_out = map train2asprs labels_in. The array is bit-identical only
when every entry is a fixed point of that table. -/
theorem C5_skip_all_translates (labelDefs : List Label) (t2a : ℕ → ℕ)
    (lu : ℕ) (useColors unclassifiedOnly : Bool) (skip : List ℕ)
    (ps : WritebackState)
    (hne : ps.labels ≠ [])
    (hlen : ps.labels.length = ps.count)
    (hpm : ∀ m ∈ ps.pointMap, m < ps.baseLabels.length)
    (hbl : ∀ b ∈ ps.baseLabels, b < labelDefs.length)
    (hskip : ∀ ld ∈ labelDefs, ld.asprsCode ∈ skip ∧ ld.asprsCode ≤ 255) :
    (classifyWriteback labelDefs t2a lu useColors unclassifiedOnly skip
        ps).labels
      = ps.labels.map t2a := by
  apply writeback_noupdate_labels _ _ _ _ _ _ _ hne hlen
  intro k hk
  have hk2 : k < ps.pointMap.length := hk
  have hmem : labelFor labelDefs ps.pointMap ps.baseLabels k ∈ labelDefs := by
    unfold labelFor
    have h1 : ps.pointMap.getD k 0 ∈ ps.pointMap := by
      rw [List.getD_eq_getElem?_getD, List.getElem?_eq_getElem hk2]
      exact List.getElem_mem hk2
    have h2 : ps.pointMap.getD k 0 < ps.baseLabels.length := hpm _ h1
    have h3 : ps.baseLabels.getD (ps.pointMap.getD k 0) 0 ∈ ps.baseLabels := by
      rw [List.getD_eq_getElem?_getD, List.getElem?_eq_getElem h2]
      exact List.getElem_mem h2
    have h4 : ps.baseLabels.getD (ps.pointMap.getD k 0) 0 < labelDefs.length :=
      hbl _ h3
    rw [List.getD_eq_getElem?_getD, List.getElem?_eq_getElem h4]
    exact List.getElem_mem h4
  obtain ⟨hin, hle⟩ := hskip _ hmem
  have hsm : skipMapped skip
      (labelFor labelDefs ps.pointMap ps.baseLabels k).asprsCode = true := by
    simp [skipMapped, List.mem_filter, hin, hle]
  unfold updVal
  rw [hsm]
  simp

/-- C5 amended-claim witness: one ground point with training code 0, skip
set [2] covering the single label's ASPRS code 2; the output is the
translation of the input labels. -/
theorem C5_skip_all_translates_witness :
    (classifyWriteback [Label.mk "ground" 2 (67, 103, 21)] (fun t => t + 2)
        0 false false [2] (WritebackState.mk [0] [(0, 0, 0)] [0] [0])).labels
      = [0].map (fun t => t + 2) :=
  C5_skip_all_translates [Label.mk "ground" 2 (67, 103, 21)] (fun t => t + 2)
    0 false false [2] (WritebackState.mk [0] [(0, 0, 0)] [0] [0])
    (by decide) rfl (by decide) (by decide) (by decide)

/-- C6 counterexample: a fully pre-classified surface (single point, label
1, LABEL_UNCLASSIFIED modelled as 0) run with unclassifiedOnly = true: the
point is not updated, so classifier.hpp:400-403 rewrites labels[0] from 1 to
train2asprs[1] = 6; the array is not bit-identical to its input. -/
theorem C6_counterexample :
    (∀ x ∈ [1], x ≠ 0)
    ∧ (classifyWriteback [Label.mk "ground" 2 (67, 103, 21)]
        (fun t => if t = 0 then 2 else if t = 1 then 6 else 0) 0 false true
        [] (WritebackState.mk [1] [(0, 0, 0)] [0] [0])).labels
      ≠ (WritebackState.mk [1] [(0, 0, 0)] [0] [0]).labels := by
  refine ⟨by decide, ?_⟩
  decide

/-- C6 (amended): with unclassifiedOnly = true on a surface in which every
point carries a label other than LABEL_UNCLASSIFIED, no point is updated,
and classifyData rewrites every surface label entry through the
training-to-ASPRS table: labels_out = map train2asprs labels_in, which is
bit-identical only when every entry is a fixed point of that table. -/
theorem C6_preclassified_translates (labelDefs : List Label) (t2a : ℕ → ℕ)
    (lu : ℕ) (useColors : Bool) (skip : List ℕ) (ps : WritebackState)
    (hne : ps.labels ≠ [])
    (hlen : ps.labels.length = ps.count)
    (hall : ∀ x ∈ ps.labels, x ≠ lu) :
    (classifyWriteback labelDefs t2a lu useColors true skip ps).labels
      = ps.labels.map t2a := by
  apply writeback_noupdate_labels _ _ _ _ _ _ _ hne hlen
  intro k hk
  have hkl : k < ps.labels.length := by rw [hlen]; exact hk
  have hx : ps.labels.getD k 0 ∈ ps.labels := by
    rw [List.getD_eq_getElem?_getD, List.getElem?_eq_getElem hkl]
    exact List.getElem_mem hkl
  have hne2 : (ps.labels.getD k 0 != lu) = true :=
    bne_iff_ne.mpr (hall _ hx)
  unfold updVal
  rw [hne2]
  simp

/-- C6 amended-claim witness: two pre-classified points (labels 3 and 1,
LABEL_UNCLASSIFIED modelled as 0), unclassifiedOnly on; the output is the
translation of the input labels. -/
theorem C6_preclassified_translates_witness :
    (classifyWriteback [Label.mk "ground" 2 (67, 103, 21)] (fun t => t + 5)
        0 false true [] (WritebackState.mk [3, 1] [(0, 0, 0), (0, 0, 0)]
          [0, 0] [0])).labels
      = [3, 1].map (fun t => t + 5) :=
  C6_preclassified_translates [Label.mk "ground" 2 (67, 103, 21)]
    (fun t => t + 5) 0 false [] (WritebackState.mk [3, 1]
      [(0, 0, 0), (0, 0, 0)] [0, 0] [0]) (by decide) rfl (by decide)

/-- With useColors = true no resize is performed (classifier.hpp:357 is
guarded by !useColors), so classifyData reduces to the writeback loop on the
unmodified arrays. -/
theorem classifyWriteback_useColors (labelDefs : List Label) (t2a : ℕ → ℕ)
    (lu : ℕ) (unclassifiedOnly : Bool) (skip : List ℕ) (ps : WritebackState) :
    classifyWriteback labelDefs t2a lu true unclassifiedOnly skip ps
      = { ps with
          labels := ((List.range ps.count).foldl
            (writebackStep labelDefs t2a lu true unclassifiedOnly skip
              ps.hasLabels ps.pointMap ps.baseLabels)
            (ps.labels, ps.colors)).1,
          colors := ((List.range ps.count).foldl
            (writebackStep labelDefs t2a lu true unclassifiedOnly skip
              ps.hasLabels ps.pointMap ps.baseLabels)
            (ps.labels, ps.colors)).2 } := by
  unfold classifyWriteback
  simp

/-- C9 counterexample: useColors = true on a labelled surface whose single
predicted label has its ASPRS code 2 in the skip set: the update is
suppressed, and classifier.hpp:400-403 rewrites labels[0] from 1 to
train2asprs[1] = 6 (table modelled from the spec glossary), so labels[] is
not unchanged even though only colors were supposed to be written. -/
theorem C9_counterexample :
    (classifyWriteback [Label.mk "ground" 2 (10, 20, 30)]
        (fun t => if t = 0 then 2 else if t = 1 then 6 else 0) 0 true false
        [2] (WritebackState.mk [1] [(9, 9, 9)] [0] [0])).labels
      ≠ (WritebackState.mk [1] [(9, 9, 9)] [0] [0]).labels := by
  decide

/-- C9 (amended): when useColors = true, the surface labels[] array is never
resized (its length is preserved, and it stays empty if it was empty); for
every surface point whose update decision is true only colors[i] is written
and labels[i] is unchanged; but for a point whose update is suppressed (by
the skip set or by unclassifiedOnly) on a labelled surface, labels[i] is
rewritten to train2asprs[labels[i]], and colors[i] is unchanged. -/
theorem C9_useColors_frame (labelDefs : List Label) (t2a : ℕ → ℕ) (lu : ℕ)
    (unclassifiedOnly : Bool) (skip : List ℕ) (ps : WritebackState)
    (hclen : ps.colors.length = ps.count) :
    (classifyWriteback labelDefs t2a lu true unclassifiedOnly skip
        ps).labels.length = ps.labels.length
    ∧ (ps.labels = [] →
        (classifyWriteback labelDefs t2a lu true unclassifiedOnly skip
          ps).labels = ps.labels)
    ∧ (∀ k, k < ps.count → k < ps.labels.length →
        (updVal labelDefs lu unclassifiedOnly skip true ps.pointMap
            ps.baseLabels k (ps.labels.getD k 0) = true →
          (classifyWriteback labelDefs t2a lu true unclassifiedOnly skip
              ps).labels[k]? = some (ps.labels.getD k 0)
          ∧ (classifyWriteback labelDefs t2a lu true unclassifiedOnly skip
              ps).colors[k]?
            = some (labelFor labelDefs ps.pointMap ps.baseLabels k).color)
        ∧ (updVal labelDefs lu unclassifiedOnly skip true ps.pointMap
            ps.baseLabels k (ps.labels.getD k 0) = false →
          (classifyWriteback labelDefs t2a lu true unclassifiedOnly skip
              ps).labels[k]? = some (t2a (ps.labels.getD k 0))
          ∧ (classifyWriteback labelDefs t2a lu true unclassifiedOnly skip
              ps).colors[k]? = ps.colors[k]?)) := by
  obtain ⟨hl1, hl2, hlab, hcol⟩ := writeback_fold_spec labelDefs t2a lu true
    unclassifiedOnly skip ps.hasLabels ps.pointMap ps.baseLabels ps.count
    ps.labels ps.colors
  rw [classifyWriteback_useColors]
  refine ⟨hl1, ?_, ?_⟩
  · intro hnil
    have hz : ((List.range ps.count).foldl
        (writebackStep labelDefs t2a lu true unclassifiedOnly skip
          ps.hasLabels ps.pointMap ps.baseLabels)
        (ps.labels, ps.colors)).1.length = 0 := by
      rw [hl1, hnil]
      rfl
    rw [List.length_eq_zero] at hz
    rw [hz, hnil]
  · intro k hk hkl
    have hhl : ps.hasLabels = true := by
      unfold WritebackState.hasLabels
      cases h : ps.labels
      · rw [h] at hkl
        simp at hkl
      · rfl
    rw [hhl] at hlab hcol ⊢
    have hkc : k < ps.colors.length := by rw [hclen]; exact hk
    constructor
    · intro hupd
      constructor
      · rw [hlab k, if_pos ⟨hk, hkl⟩]
        unfold labelOutVal
        rw [hupd]
        simp
      · rw [hcol k, if_pos ⟨hk, hkc⟩]
        unfold colorOutVal
        rw [hupd]
        simp
    · intro hupd
      constructor
      · rw [hlab k, if_pos ⟨hk, hkl⟩]
        unfold labelOutVal
        rw [hupd]
        simp
      · rw [hcol k, if_pos ⟨hk, hkc⟩]
        unfold colorOutVal
        rw [hupd]
        rw [List.getD_eq_getElem?_getD, List.getElem?_eq_getElem hkc]
        simp

/-- C9 amended-claim witness: one surface point, update allowed (empty skip
set, unclassifiedOnly off). -/
theorem C9_useColors_frame_witness :
    (classifyWriteback [Label.mk "ground" 2 (10, 20, 30)] (fun t => t + 2) 0
        true false [] (WritebackState.mk [1] [(9, 9, 9)] [0] [0])).labels.length
      = (WritebackState.mk [1] [(9, 9, 9)] [0] [0]).labels.length
    ∧ ((WritebackState.mk [1] [(9, 9, 9)] [0] [0]).labels = [] →
        (classifyWriteback [Label.mk "ground" 2 (10, 20, 30)] (fun t => t + 2)
          0 true false [] (WritebackState.mk [1] [(9, 9, 9)] [0] [0])).labels
          = (WritebackState.mk [1] [(9, 9, 9)] [0] [0]).labels)
    ∧ (∀ k, k < (WritebackState.mk [1] [(9, 9, 9)] [0] [0]).count →
        k < (WritebackState.mk [1] [(9, 9, 9)] [0] [0]).labels.length →
        (updVal [Label.mk "ground" 2 (10, 20, 30)] 0 false [] true [0] [0] k
            ((WritebackState.mk [1] [(9, 9, 9)] [0] [0]).labels.getD k 0)
            = true →
          (classifyWriteback [Label.mk "ground" 2 (10, 20, 30)]
              (fun t => t + 2) 0 true false []
              (WritebackState.mk [1] [(9, 9, 9)] [0] [0])).labels[k]?
            = some ((WritebackState.mk [1] [(9, 9, 9)] [0] [0]).labels.getD k 0)
          ∧ (classifyWriteback [Label.mk "ground" 2 (10, 20, 30)]
              (fun t => t + 2) 0 true false []
              (WritebackState.mk [1] [(9, 9, 9)] [0] [0])).colors[k]?
            = some (labelFor [Label.mk "ground" 2 (10, 20, 30)] [0] [0]
                k).color)
        ∧ (updVal [Label.mk "ground" 2 (10, 20, 30)] 0 false [] true [0] [0] k
            ((WritebackState.mk [1] [(9, 9, 9)] [0] [0]).labels.getD k 0)
            = false →
          (classifyWriteback [Label.mk "ground" 2 (10, 20, 30)]
              (fun t => t + 2) 0 true false []
              (WritebackState.mk [1] [(9, 9, 9)] [0] [0])).labels[k]?
            = some ((WritebackState.mk [1] [(9, 9, 9)] [0] [0]).labels.getD k 0
                + 2)
          ∧ (classifyWriteback [Label.mk "ground" 2 (10, 20, 30)]
              (fun t => t + 2) 0 true false []
              (WritebackState.mk [1] [(9, 9, 9)] [0] [0])).colors[k]?
            = (WritebackState.mk [1] [(9, 9, 9)] [0] [0]).colors[k]?)) :=
  C9_useColors_frame [Label.mk "ground" 2 (10, 20, 30)] (fun t => t + 2) 0
    false [] (WritebackState.mk [1] [(9, 9, 9)] [0] [0]) rfl

/-! ## Per-point inference (classifyData, classifier.hpp:119-356) -/

/-- The argmax scan shared by the inference paths: starting with best class
0 and best value 0, each class j whose value is strictly greater than the
current best value becomes the new best. It is the loop of the None path
(classifier.hpp:149-158, comparison probs[j] > bestClassVal) and of the
Graph-Cut path (classifier.hpp:329-341, comparison valClassBest < value),
which have the same comparison semantics. Probabilities are modelled with
Rat; everything verified about them depends only on their linear order. -/
def scanBest : List ℚ → ℕ → (ℕ × ℚ) → ℕ × ℚ
  | [], _, best => best
  | p :: rest, j, best => scanBest rest (j + 1) (if p > best.2 then (j, p) else best)

/-- bestClass as computed by the None inference path for one probability
vector (classifier.hpp:149-160). -/
def bestClass (probs : List ℚ) : ℕ := (scanBest probs 0 (0, 0)).1

/-- The per-point feature gather (classifier.hpp:143-145): the vector of
feature values of point i; getValue f i is features[f]-&gt;getValue(i), a
parameter as the Feature objects are constructed outside classifyData. -/
def ftVec (getValue : ℕ → ℕ → ℚ) (numFeatures i : ℕ) : List ℚ :=
  (List.range numFeatures).map (fun f => getValue f i)

/-- The None regularization path (classifier.hpp:133-162): base.labels is
resized to base.count and entry i receives the argmax of the probability
vector the evaluator returns on point i's feature vector. -/
def classifyNone (getValue : ℕ → ℕ → ℚ) (evaluateFunc : List ℚ → List ℚ)
    (numFeatures count : ℕ) : List ℕ :=
  (List.range count).map
    (fun i => bestClass (evaluateFunc (ftVec getValue numFeatures i)))

/-- k is the smallest index attaining the maximum of l. -/
def IsLeastArgmax (k : ℕ) (l : List ℚ) : Prop :=
  k < l.length
  ∧ (∀ m, m < l.length → l.getD m 0 ≤ l.getD k 0)
  ∧ ∀ m, m < k → l.getD m 0 < l.getD k 0

/-- The initial accumulator is a lower bound of a max-fold. -/
theorem foldl_max_init_le (l : List ℚ) : ∀ a : ℚ, a ≤ l.foldl max a := by
  induction l with
  | nil => intro a; exact le_refl a
  | cons p rest ih =>
    intro a
    rw [List.foldl_cons]
    exact le_trans (le_max_left a p) (ih (max a p))

/-- Every element is a lower bound of a max-fold. -/
theorem mem_le_foldl_max (l : List ℚ) :
    ∀ (a x : ℚ), x ∈ l → x ≤ l.foldl max a := by
  induction l with
  | nil => intro a x hx; cases hx
  | cons p rest ih =>
    intro a x hx
    rw [List.foldl_cons]
    rcases List.mem_cons.mp hx with h | h
    · subst h
      exact le_trans (le_max_right a x) (foldl_max_init_le rest (max a x))
    · exact ih (max a p) x h

/-- An in-range getD value is an element of the list. -/
theorem getD_mem_of_lt (l : List ℚ) (m : ℕ) (hm : m < l.length) :
    l.getD m 0 ∈ l := by
  rw [List.getD_eq_getElem?_getD, List.getElem?_eq_getElem hm]
  exact List.getElem_mem hm

/-- Characterization of the argmax scan: the final best value is the
max-fold of the values over the initial best value, and the final pair is
either the initial one (nothing exceeded its value) or (j + k, l[k]) for an
index k whose value strictly exceeds the initial best value and every
earlier value. -/
theorem scanBest_spec (l : List ℚ) :
    ∀ (j : ℕ) (best : ℕ × ℚ),
      (scanBest l j best).2 = l.foldl max best.2
      ∧ (scanBest l j best = best
         ∨ ∃ k, k < l.length
            ∧ (scanBest l j best).1 = j + k
            ∧ (scanBest l j best).2 = l.getD k 0
            ∧ best.2 < l.getD k 0
            ∧ ∀ m, m < k → l.getD m 0 < l.getD k 0) := by
  induction l with
  | nil => intro j best; exact ⟨rfl, Or.inl rfl⟩
  | cons p rest ih =>
    intro j best
    rw [show scanBest (p :: rest) j best
        = scanBest rest (j + 1) (if p > best.2 then (j, p) else best) from rfl]
    by_cases hp : p > best.2
    · rw [if_pos hp]
      obtain ⟨hv, hcase⟩ := ih (j + 1) (j, p)
      constructor
      · rw [hv, List.foldl_cons]
        congr 1
        exact (max_eq_right (le_of_lt hp)).symm
      · rcases hcase with heq | ⟨k, hk, h1, h2, h3, h4⟩
        · refine Or.inr ⟨0, by simp, ?_, ?_, hp, ?_⟩
          · rw [heq]
            omega
          · rw [heq]
            rfl
          · intro m hm
            omega
        · refine Or.inr ⟨k + 1, by simp [List.length_cons]; omega, ?_, ?_, ?_, ?_⟩
          · rw [h1]
            omega
          · rw [h2]
            rfl
          · exact lt_trans hp h3
          · intro m hm
            match m, hm with
            | 0, _ =>
              show p < rest.getD k 0
              exact h3
            | m + 1, hm1 =>
              show rest.getD m 0 < rest.getD k 0
              exact h4 m (by omega)
    · rw [if_neg hp]
      obtain ⟨hv, hcase⟩ := ih (j + 1) best
      have hple : p ≤ best.2 := le_of_not_lt hp
      constructor
      · rw [hv, List.foldl_cons]
        congr 1
        exact (max_eq_left hple).symm
      · rcases hcase with heq | ⟨k, hk, h1, h2, h3, h4⟩
        · exact Or.inl heq
        · refine Or.inr ⟨k + 1, by simp [List.length_cons]; omega, ?_, ?_, h3, ?_⟩
          · rw [h1]
            omega
          · rw [h2]
            rfl
          · intro m hm
            match m, hm with
            | 0, _ =>
              show p < rest.getD k 0
              exact lt_of_le_of_lt hple h3
            | m + 1, hm1 =>
              show rest.getD m 0 < rest.getD k 0
              exact h4 m (by omega)

/-- For a non-empty vector of non-negative values, the scan from (0, 0)
returns the least index attaining the maximum. -/
theorem bestClass_isLeastArgmax (probs : List ℚ) (hne : probs ≠ [])
    (hnn : ∀ p ∈ probs, 0 ≤ p) : IsLeastArgmax (bestClass probs) probs := by
  obtain ⟨hv, hcase⟩ := scanBest_spec probs 0 (0, 0)
  have hlen : 0 < probs.length := List.length_pos.mpr hne
  rcases hcase with heq | ⟨k, hk, h1, h2, h3, h4⟩
  · have hz : (scanBest probs 0 (0, 0)).2 = 0 := by rw [heq]
    have hfold : probs.foldl max 0 = 0 := by rw [← hv, hz]
    have hall : ∀ x ∈ probs, x = 0 := by
      intro x hx
      have hle := mem_le_foldl_max probs 0 x hx
      rw [hfold] at hle
      exact le_antisymm hle (hnn x hx)
    have hb : bestClass probs = 0 := by
      unfold bestClass
      rw [heq]
    rw [hb]
    refine ⟨hlen, ?_, ?_⟩
    · intro m hm
      rw [hall _ (getD_mem_of_lt probs m hm), hall _ (getD_mem_of_lt probs 0 hlen)]
    · intro m hm
      omega
  · have hb : bestClass probs = k := by
      unfold bestClass
      rw [h1]
      omega
    rw [hb]
    refine ⟨hk, ?_, h4⟩
    intro m hm
    have hle := mem_le_foldl_max probs 0 (probs.getD m 0) (getD_mem_of_lt probs m hm)
    rw [← hv, h2] at hle
    exact hle

/-- C7: with regularization = None, the label stored in base.labels[i] is
the argmax of the probability vector the evaluator returns on point i's
feature vector, and ties are broken towards the smallest class index (the
loop compares with strict &gt; starting from class 0 and best value 0). -/
theorem C7_none_path_argmax (getValue : ℕ → ℕ → ℚ)
    (evaluateFunc : List ℚ → List ℚ) (numFeatures count i : ℕ)
    (hi : i < count)
    (hne : evaluateFunc (ftVec getValue numFeatures i) ≠ [])
    (hnn : ∀ p ∈ evaluateFunc (ftVec getValue numFeatures i), 0 ≤ p) :
    (classifyNone getValue evaluateFunc numFeatures count)[i]?
      = some (bestClass (evaluateFunc (ftVec getValue numFeatures i)))
    ∧ IsLeastArgmax (bestClass (evaluateFunc (ftVec getValue numFeatures i)))
        (evaluateFunc (ftVec getValue numFeatures i)) := by
  constructor
  · unfold classifyNone
    rw [List.getElem?_map, List.getElem?_range hi]
    rfl
  · exact bestClass_isLeastArgmax _ hne hnn

/-- C7 witness: two points, a two-class evaluator with a tie on point 0
(probabilities (1/2, 1/2): class 0 wins) checked through the theorem at
point 0. -/
theorem C7_none_path_argmax_witness :
    (classifyNone (fun f i => (i : ℚ)) (fun ft => [1/2, 1/2]) 1 2)[0]?
      = some (bestClass ((fun ft : List ℚ => [(1:ℚ)/2, 1/2])
          (ftVec (fun f i => (i : ℚ)) 1 0)))
    ∧ IsLeastArgmax (bestClass ((fun ft : List ℚ => [(1:ℚ)/2, 1/2])
          (ftVec (fun f i => (i : ℚ)) 1 0)))
        ((fun ft : List ℚ => [(1:ℚ)/2, 1/2]) (ftVec (fun f i => (i : ℚ)) 1 0)) :=
  C7_none_path_argmax (fun f i => (i : ℚ)) (fun ft => [1/2, 1/2]) 1 2 0
    (by norm_num) (List.cons_ne_nil _ _) (by norm_num)

/-! ## Graph-Cut unary costs and initial labels (classifier.hpp:321-342) -/

/-- Unary cost of one class probability in the Graph-Cut path
(classifier.hpp:334: probabilityMatrix[k][j] = -std::log(value)). In the
IEEE evaluation, -log(v) is +infinity exactly for v = 0 and finite for
every representable v greater than 0; the embedding records that
distinction symbolically: inf for v = 0, and the finite cost -ln v tagged
by its argument otherwise (negative v does not arise for probabilities;
theorems restrict to non-negative values). -/
inductive LogCost where
  | inf : LogCost
  | negLogOf : ℚ → LogCost
deriving DecidableEq

/-- The -log of classifier.hpp:334 as a LogCost. -/
def unaryCost (v : ℚ) : LogCost :=
  if v = 0 then LogCost.inf else LogCost.negLogOf v

/-- Per-point work of the Graph-Cut tile loop (classifier.hpp:321-342): the
unary-cost column of the point, and the initial hard label assignedLabel[j]
computed by the loop with comparison valClassBest &lt; value starting from
class 0 and value 0 - the same scan as the None path. -/
def processTilePoint (values : List ℚ) : List LogCost × ℕ :=
  (values.map unaryCost, (scanBest values 0 (0, 0)).1)

/-- C8 counterexample: a tile point with class probabilities (0, 1). The
unary cost computed for class 0 is +infinity (-log 0); no epsilon is
substituted anywhere in classifier.hpp:329-342. -/
theorem C8_counterexample :
    (processTilePoint [0, 1]).1[0]? = some LogCost.inf
    ∧ LogCost.inf ∉ [LogCost.negLogOf 0, LogCost.negLogOf 1] := by
  constructor
  · rfl
  · decide

/-- C8 (amended): no epsilon is substituted: a class probability of exactly
0 produces a +infinity unary cost (-log 0). The initial argmax label is
nonetheless unaffected by such classes: since the comparison is strict and
starts from best value 0, a class with probability 0 can never win, and
whenever some class has positive probability the chosen initial label has
positive probability. -/
theorem C8_zero_probability_unary (values : List ℚ)
    (hnn : ∀ v ∈ values, 0 ≤ v) :
    (∀ k, k < values.length → values.getD k 0 = 0 →
      (processTilePoint values).1[k]? = some LogCost.inf)
    ∧ ((∃ v ∈ values, 0 < v) →
        (processTilePoint values).2 < values.length
        ∧ 0 < values.getD (processTilePoint values).2 0) := by
  constructor
  · intro k hk hzero
    show (values.map unaryCost)[k]? = some LogCost.inf
    rw [List.getElem?_map, List.getElem?_eq_getElem hk]
    have : values.getD k 0 = values[k] := by
      rw [List.getD_eq_getElem?_getD, List.getElem?_eq_getElem hk]
      rfl
    rw [this] at hzero
    simp [unaryCost, hzero]
  · intro ⟨v, hv, hvpos⟩
    obtain ⟨hval, hcase⟩ := scanBest_spec values 0 (0, 0)
    have hmax : 0 < values.foldl max 0 :=
      lt_of_lt_of_le hvpos (mem_le_foldl_max values 0 v hv)
    rcases hcase with heq | ⟨k, hk, h1, h2, h3, h4⟩
    · exfalso
      have : (scanBest values 0 (0, 0)).2 = 0 := by rw [heq]
      rw [hval] at this
      rw [this] at hmax
      exact lt_irrefl 0 hmax
    · have hres : (processTilePoint values).2 = k := by
        show (scanBest values 0 (0, 0)).1 = k
        rw [h1]
        omega
      rw [hres]
      exact ⟨hk, h3⟩

/-- C8 amended-claim witness: probabilities (0, 1): class 0 gets an
infinite unary cost, and the initial label has positive probability. -/
theorem C8_zero_probability_unary_witness :
    (∀ k, k < ([0, 1] : List ℚ).length → ([0, 1] : List ℚ).getD k 0 = 0 →
      (processTilePoint [0, 1]).1[k]? = some LogCost.inf)
    ∧ ((∃ v ∈ ([0, 1] : List ℚ), 0 < v) →
        (processTilePoint [0, 1]).2 < ([0, 1] : List ℚ).length
        ∧ 0 < ([0, 1] : List ℚ).getD (processTilePoint [0, 1]).2 0) :=
  C8_zero_probability_unary [0, 1] (by norm_num)

/-! ## Graph-Cut tiling and edge construction (classifier.hpp:262-319) -/

/-- Tile assignment (classifier.hpp:267-281): point i is assigned to the
first bounding box that contains it, and to box 0 when none does (idx
starts at 0 and is only overwritten on the first hit). The floating-point
bbox geometry is abstracted by the containment predicate contains b i (box
b contains point i), since the claim is about the edge construction over a
given tiling. -/
def tileOf (contains : ℕ → ℕ → Bool) (nb i : ℕ) : ℕ :=
  match (List.range nb).find? (fun b => contains b i) with
  | some b => b
  | none => 0

/-- inputToIndices[i] (classifier.hpp:279): the pair (i, tile of i); the
first component is the point's own global index, the second its tile
index. -/
def inputToIndices (contains : ℕ → ℕ → Bool) (nb i : ℕ) : ℕ × ℕ :=
  (i, tileOf contains nb i)

/-- indices[t] (classifier.hpp:280): the global indices of the points of
tile t, in increasing order (points are pushed in index order over the
whole cloud of n points). -/
def tileIndices (contains : ℕ → ℕ → Bool) (nb n t : ℕ) : List ℕ :=
  (List.range n).filter (fun i => tileOf contains nb i == t)

/-- The edge list built for tile sub by the source (classifier.hpp:299-319):
for the j-th point s of the tile and each of its k-NN neighbours (the
kd-tree query knnSearch is the parameter knn), the pair
(j, inputToIndices[neighbour].second) is pushed iff
sub == inputToIndices[neighbour].first and
j != inputToIndices[neighbour].second. Since inputToIndices[p] is
(p, tile of p), the guard compares the tile number sub with the neighbour's
global point index, and the emitted second endpoint is the neighbour's tile
index. -/
def tileEdges (contains : ℕ → ℕ → Bool) (knn : ℕ → List ℕ) (nb n sub : ℕ) :
    List (ℕ × ℕ) :=
  (tileIndices contains nb n sub).enum.flatMap (fun js =>
    (knn js.2).flatMap (fun neighbor =>
      if sub = (inputToIndices contains nb neighbor).1
          ∧ js.1 ≠ (inputToIndices contains nb neighbor).2 then
        [(js.1, (inputToIndices contains nb neighbor).2)]
      else []))

/-- The edge list the specification prescribes (spec §4.2 and the claim):
an edge (j, position of the neighbour within the tile) iff the neighbour
belongs to tile sub and its position within the tile differs from j.
Stated from the spec's words, for comparison with tileEdges. -/
def specTileEdges (contains : ℕ → ℕ → Bool) (knn : ℕ → List ℕ)
    (nb n sub : ℕ) : List (ℕ × ℕ) :=
  (tileIndices contains nb n sub).enum.flatMap (fun js =>
    (knn js.2).flatMap (fun neighbor =>
      if tileOf contains nb neighbor = sub
          ∧ (tileIndices contains nb n sub).indexOf neighbor ≠ js.1 then
        [(js.1, (tileIndices contains nb n sub).indexOf neighbor)]
      else []))

/-- C1: evaluation at a failing input. Three points, two tiles; points 0
and 1 land in tile 0, point 2 in tile 1; the only k-NN result is that point
1 is a neighbour of point 0. Point 1 lies in the same tile 0 as point 0 and
its position within the tile (1) differs from j = 0, so the claimed rule
emits the edge (0, 1) - as the spec-normalized construction does. The
source emits nothing, because its guard compares the tile number sub = 0
with the neighbour's global index 1 (classifier.hpp:312-313). -/
theorem C1_edge_emission_failing_input :
    tileEdges (fun b i => (b == 0 && decide (i ≤ 1)) || (b == 1 && i == 2))
        (fun s => if s = 0 then [1] else []) 2 3 0
      = []
    ∧ specTileEdges
        (fun b i => (b == 0 && decide (i ≤ 1)) || (b == 1 && i == 2))
        (fun s => if s = 0 then [1] else []) 2 3 0
      = [(0, 1)]
    ∧ tileOf (fun b i => (b == 0 && decide (i ≤ 1)) || (b == 1 && i == 2)) 2 1
      = tileOf (fun b i => (b == 0 && decide (i ≤ 1)) || (b == 1 && i == 2)) 2 0 := by
  refine ⟨?_, ?_, ?_⟩ <;> decide

/-! ## Random-forest Gini split threshold
   (src/vendor/ethz/random-forest/node-gini.hpp:28-70) -/

/-- gini_square_term (node-gini.hpp:28-31): inner product of the class
frequency vector with itself. Frequencies are uint64 sample counts; the
properties verified do not depend on 64-bit wraparound, which cannot occur
for sample counts below 2^32. -/
def gini_square_term (freq : List ℕ) : ℕ := (freq.map (fun x => x * x)).sum

/-- The lexicographic order std::sort uses on std::pair(feature value,
class). Feature values are floats, modelled with Rat. -/
def pairLe (a b : ℚ × ℕ) : Prop := a.1 < b.1 ∨ (a.1 = b.1 ∧ a.2 ≤ b.2)

instance : DecidableRel pairLe := fun a b => by
  unfold pairLe
  infer_instance

instance : IsTotal (ℚ × ℕ) pairLe where
  total a b := by
    rcases lt_trichotomy a.1 b.1 with h | h | h
    · exact Or.inl (Or.inl h)
    · rcases Nat.le_total a.2 b.2 with h2 | h2
      · exact Or.inl (Or.inr ⟨h, h2⟩)
      · exact Or.inr (Or.inr ⟨h.symm, h2⟩)
    · exact Or.inr (Or.inl h)

instance : IsTrans (ℚ × ℕ) pairLe where
  trans a b c hab hbc := by
    rcases hab with h | ⟨he, h2⟩
    · rcases hbc with h2 | ⟨he2, _⟩
      · exact Or.inl (h.trans h2)
      · exact Or.inl (he2 ▸ h)
    · rcases hbc with h3 | ⟨he2, h3⟩
      · exact Or.inl (he ▸ h3)
      · exact Or.inr ⟨he.trans he2, h2.trans h3⟩

/-- std::sort of the samples (node-gini.hpp:50), modelled with insertion
sort under the pair order. std::sort leaves the relative order of lex-equal
pairs unspecified; the theorems below depend only on the result being
sorted and a permutation of the input. -/
def sortData (d : List (ℚ × ℕ)) : List (ℚ × ℕ) := d.insertionSort pairLe

/-- The class histogram of the samples: the initial classes_r fill of
node-gini.hpp:45-48, one increment per sample at its class. -/
def classCounts (nClasses : ℕ) (d : List (ℚ × ℕ)) : List ℕ :=
  d.foldl (fun freq p => freq.set p.2 (freq.getD p.2 0 + 1))
    (List.replicate nClasses 0)

/-- Loop state of determine_best_threshold (node-gini.hpp:37-57): the class
distributions left and right of the split, their sizes (doubles in the
source), the best loss so far (+infinity initially, the top element of
WithTop Rat), the best threshold so far, and the number of fraction draws
consumed from the PRNG stream fracs. -/
structure BTState where
  classesL : List ℕ
  classesR : List ℕ
  nL : ℚ
  nR : ℚ
  bestLoss : WithTop ℚ
  bestThresh : ℚ
  fracIdx : ℕ

/-- The left/right bookkeeping of one loop iteration (node-gini.hpp:53-57):
move one sample of class cls from the right to the left distribution.
classes_r[cls]-- is truncated Nat subtraction; in every reachable state the
entry is positive, since the class was counted into classes_r. -/
def btBook (st : BTState) (cls : ℕ) : BTState :=
  { st with
    classesL := st.classesL.set cls (st.classesL.getD cls 0 + 1),
    classesR := st.classesR.set cls (st.classesR.getD cls 0 - 1),
    nL := st.nL + 1,
    nR := st.nR - 1 }

/-- The weighted-average Gini loss of node-gini.hpp:62. -/
def btGini (st : BTState) : ℚ :=
  st.nL - (gini_square_term st.classesL : ℚ) / st.nL
    + st.nR - (gini_square_term st.classesR : ℚ) / st.nR

/-- The best-split update of node-gini.hpp:63-66: record the improved loss,
draw a fraction and place the threshold at fraction * a + (1 - fraction) * b
for the adjacent feature values a, b. -/
def btUpdate (fracs : ℕ → ℚ) (a b : ℚ) (st : BTState) : BTState :=
  { st with
    bestLoss := ((btGini st : ℚ) : WithTop ℚ),
    bestThresh := fracs st.fracIdx * a + (1 - fracs st.fracIdx) * b,
    fracIdx := st.fracIdx + 1 }

/-- The loop of node-gini.hpp:52-68 over the sorted samples, processing the
consecutive pairs (prev, cur) = (data[i-1], data[i]): move prev's class
from the right to the left distribution; do not split between equal feature
values; otherwise compute the weighted Gini loss and, when it improves on
the best loss so far, record it and the randomized threshold. -/
def btLoop (fracs : ℕ → ℚ) : List (ℚ × ℕ) → BTState → BTState
  | [], st => st
  | [_], st => st
  | prev :: cur :: rest, st =>
    let st1 := btBook st prev.2
    if prev.1 = cur.1 then btLoop fracs (cur :: rest) st1
    else if ((btGini st1 : ℚ) : WithTop ℚ) < st1.bestLoss then
      btLoop fracs (cur :: rest) (btUpdate fracs prev.1 cur.1 st1)
    else btLoop fracs (cur :: rest) st1

/-- determine_best_threshold (node-gini.hpp:32-70): fill classes_r with the
class histogram and n_r with the sample count, sort, run the loop, and
return (best threshold, best loss). -/
def determine_best_threshold (nClasses : ℕ) (fracs : ℕ → ℚ)
    (data : List (ℚ × ℕ)) : ℚ × WithTop ℚ :=
  let st := btLoop fracs (sortData data)
    { classesL := List.replicate nClasses 0,
      classesR := classCounts nClasses data,
      nL := 0,
      nR := (data.length : ℚ),
      bestLoss := ⊤,
      bestThresh := 0,
      fracIdx := 0 }
  (st.bestThresh, st.bestLoss)

/-- A threshold that is a [0,1]-mix of some adjacent pair of the sorted
data with distinct feature values. -/
def GoodThresh (sorted : List (ℚ × ℕ)) (t : ℚ) : Prop :=
  ∃ ab ∈ sorted.zip sorted.tail, ab.1.1 ≠ ab.2.1
    ∧ ∃ f : ℚ, 0 ≤ f ∧ f ≤ 1 ∧ t = f * ab.1.1 + (1 - f) * ab.2.1

/-- Adjacent pairs of the tail of a list are adjacent pairs of the list. -/
theorem zip_tail_tail_subset {α : Type} (x : α) (xs : List α) :
    ∀ p, p ∈ xs.zip xs.tail → p ∈ (x :: xs).zip (x :: xs).tail := by
  cases xs with
  | nil =>
    intro p hp
    simp at hp
  | cons y ys =>
    intro p hp
    show p ∈ (x, y) :: ((y :: ys).zip ys)
    exact List.mem_cons_of_mem _ hp

/-- An adjacent pair of a list sits at some pair of consecutive indices. -/
theorem mem_zip_tail_getD (l : List (ℚ × ℕ)) (p : (ℚ × ℕ) × (ℚ × ℕ)) :
    p ∈ l.zip l.tail →
      ∃ i, i + 1 < l.length
        ∧ l.getD i (0, 0) = p.1 ∧ l.getD (i + 1) (0, 0) = p.2 := by
  induction l with
  | nil => intro hp; simp at hp
  | cons x xs ih =>
    cases xs with
    | nil => intro hp; simp at hp
    | cons y ys =>
      intro hp
      have hp2 : p ∈ (x, y) :: ((y :: ys).zip ((y :: ys).tail)) := hp
      rcases List.mem_cons.mp hp2 with h | h
      · refine ⟨0, by simp, ?_, ?_⟩
        · rw [h]
          rfl
        · rw [h]
          rfl
      · obtain ⟨i, hi, h1, h2⟩ := ih h
        refine ⟨i + 1, ?_, h1, h2⟩
        simp only [List.length_cons] at hi ⊢
        omega

/-- Adjacent entries of a pairwise-sorted list are related. -/
theorem getD_pairwise_adjacent (l : List (ℚ × ℕ))
    (hs : List.Pairwise pairLe l) (i : ℕ) (hi : i + 1 < l.length) :
    pairLe (l.getD i (0, 0)) (l.getD (i + 1) (0, 0)) := by
  have h := List.pairwise_iff_getElem.mp hs i (i + 1) (by omega) hi (by omega)
  have e1 : l.getD i (0, 0) = l[i] := by
    rw [List.getD_eq_getElem?_getD,
      List.getElem?_eq_getElem (show i < l.length by omega)]
    rfl
  have e2 : l.getD (i + 1) (0, 0) = l[i + 1] := by
    rw [List.getD_eq_getElem?_getD, List.getElem?_eq_getElem hi]
    rfl
  rw [e1, e2]
  exact h

/-- A [0,1]-mix of two ordered rationals lies between them. -/
theorem mix_between (a b f : ℚ) (hab : a ≤ b) (h0 : 0 ≤ f) (h1 : f ≤ 1) :
    a ≤ f * a + (1 - f) * b ∧ f * a + (1 - f) * b ≤ b := by
  constructor <;> nlinarith

/-- Invariant of the threshold loop: over any run of the loop along
consecutive pairs of the sorted data, (i) the state is always either the
initial (+infinity, 0) pair or a threshold mixed from some strictly
increasing adjacent pair; (ii) the final loss is finite as soon as some
processed adjacent pair has distinct feature values or the incoming loss
was already finite; (iii) when every processed pair has equal feature
values, the threshold and the loss pass through unchanged. -/
theorem btLoop_invariant (fracs : ℕ → ℚ) (hf : ∀ n, 0 ≤ fracs n ∧ fracs n ≤ 1)
    (sorted : List (ℚ × ℕ)) :
    ∀ (l : List (ℚ × ℕ)) (st : BTState),
      (∀ p ∈ l.zip l.tail, p ∈ sorted.zip sorted.tail)
      → ((st.bestLoss = ⊤ ∧ st.bestThresh = 0)
          ∨ GoodThresh sorted st.bestThresh)
      → (((btLoop fracs l st).bestLoss = ⊤
            ∧ (btLoop fracs l st).bestThresh = 0)
          ∨ GoodThresh sorted (btLoop fracs l st).bestThresh)
        ∧ (((∃ p ∈ l.zip l.tail, p.1.1 ≠ p.2.1) ∨ st.bestLoss ≠ ⊤)
            → (btLoop fracs l st).bestLoss ≠ ⊤)
        ∧ ((∀ p ∈ l.zip l.tail, p.1.1 = p.2.1)
            → (btLoop fracs l st).bestThresh = st.bestThresh
              ∧ (btLoop fracs l st).bestLoss = st.bestLoss) := by
  intro l
  induction l with
  | nil =>
    intro st hsub hinv
    refine ⟨hinv, ?_, fun _ => ⟨rfl, rfl⟩⟩
    intro hcond
    rcases hcond with ⟨p, hp, _⟩ | h
    · simp at hp
    · exact h
  | cons prev tl ih =>
    cases tl with
    | nil =>
      intro st hsub hinv
      refine ⟨hinv, ?_, fun _ => ⟨rfl, rfl⟩⟩
      intro hcond
      rcases hcond with ⟨p, hp, _⟩ | h
      · simp at hp
      · exact h
    | cons cur rest =>
      intro st hsub hinv
      have hzipeq : (prev :: cur :: rest).zip (prev :: cur :: rest).tail
          = (prev, cur) :: ((cur :: rest).zip ((cur :: rest).tail)) := rfl
      have hhead : (prev, cur) ∈ sorted.zip sorted.tail := by
        apply hsub
        rw [hzipeq]
        exact List.mem_cons_self _ _
      have hsub2 : ∀ p ∈ (cur :: rest).zip ((cur :: rest).tail),
          p ∈ sorted.zip sorted.tail :=
        fun p hp => hsub p (zip_tail_tail_subset prev (cur :: rest) p hp)
      have hstep : btLoop fracs (prev :: cur :: rest) st
          = if prev.1 = cur.1 then
              btLoop fracs (cur :: rest) (btBook st prev.2)
            else if ((btGini (btBook st prev.2) : ℚ) : WithTop ℚ)
                < (btBook st prev.2).bestLoss then
              btLoop fracs (cur :: rest)
                (btUpdate fracs prev.1 cur.1 (btBook st prev.2))
            else btLoop fracs (cur :: rest) (btBook st prev.2) := rfl
      by_cases heq : prev.1 = cur.1
      · rw [hstep, if_pos heq]
        obtain ⟨c1, c2, c3⟩ := ih (btBook st prev.2) hsub2 hinv
        refine ⟨c1, ?_, ?_⟩
        · intro hcond
          apply c2
          rcases hcond with ⟨p, hp, hpne⟩ | hne
          · rw [hzipeq] at hp
            rcases List.mem_cons.mp hp with h | h
            · exact absurd (by rw [h] at hpne; exact hpne) (by simp [heq])
            · exact Or.inl ⟨p, h, hpne⟩
          · exact Or.inr hne
        · intro hall
          exact c3 (fun p hp => hall p (zip_tail_tail_subset prev (cur :: rest) p hp))
      · rw [hstep, if_neg heq]
        by_cases hlt : ((btGini (btBook st prev.2) : ℚ) : WithTop ℚ)
            < (btBook st prev.2).bestLoss
        · rw [if_pos hlt]
          have hinv2 : (((btUpdate fracs prev.1 cur.1 (btBook st prev.2)).bestLoss = ⊤
              ∧ (btUpdate fracs prev.1 cur.1 (btBook st prev.2)).bestThresh = 0)
              ∨ GoodThresh sorted
                  (btUpdate fracs prev.1 cur.1 (btBook st prev.2)).bestThresh) :=
            Or.inr ⟨(prev, cur), hhead, heq,
              fracs (btBook st prev.2).fracIdx,
              (hf (btBook st prev.2).fracIdx).1,
              (hf (btBook st prev.2).fracIdx).2, rfl⟩
          obtain ⟨c1, c2, c3⟩ := ih (btUpdate fracs prev.1 cur.1 (btBook st prev.2))
            hsub2 hinv2
          refine ⟨c1, ?_, ?_⟩
          · intro _
            apply c2
            right
            exact WithTop.coe_ne_top
          · intro hall
            exact absurd (hall (prev, cur) (by rw [hzipeq]; exact List.mem_cons_self _ _)) heq
        · rw [if_neg hlt]
          have hnetop : st.bestLoss ≠ ⊤ := by
            intro htop
            apply hlt
            show _ < st.bestLoss
            rw [htop]
            exact WithTop.coe_lt_top _
          obtain ⟨c1, c2, c3⟩ := ih (btBook st prev.2) hsub2 hinv
          refine ⟨c1, ?_, ?_⟩
          · intro _
            exact c2 (Or.inr hnetop)
          · intro hall
            exact absurd (hall (prev, cur) (by rw [hzipeq]; exact List.mem_cons_self _ _)) heq

/-- C10: for every input to determine_best_threshold and every fraction
stream with values in [0,1], if the sorted data contains an adjacent pair
with distinct feature values then the returned threshold equals
fraction * a + (1 - fraction) * b for some such adjacent pair (a, b) and
some fraction in [0,1], and therefore lies between the minimum and maximum
feature values of the input; if no such pair exists, the returned threshold
is 0 with loss +infinity. -/
theorem C10_determine_best_threshold (nClasses : ℕ) (fracs : ℕ → ℚ)
    (data : List (ℚ × ℕ)) (hf : ∀ n, 0 ≤ fracs n ∧ fracs n ≤ 1) :
    ((∃ p ∈ (sortData data).zip (sortData data).tail, p.1.1 ≠ p.2.1) →
      GoodThresh (sortData data)
          (determine_best_threshold nClasses fracs data).1
      ∧ (data.map Prod.fst).minimum
          ≤ ((determine_best_threshold nClasses fracs data).1 : WithTop ℚ)
      ∧ (((determine_best_threshold nClasses fracs data).1 : WithBot ℚ)
          ≤ (data.map Prod.fst).maximum))
    ∧ ((∀ p ∈ (sortData data).zip (sortData data).tail, p.1.1 = p.2.1) →
      (determine_best_threshold nClasses fracs data).1 = 0
      ∧ (determine_best_threshold nClasses fracs data).2 = ⊤) := by
  obtain ⟨c1, c2, c3⟩ := btLoop_invariant fracs hf (sortData data)
    (sortData data)
    { classesL := List.replicate nClasses 0,
      classesR := classCounts nClasses data,
      nL := 0,
      nR := (data.length : ℚ),
      bestLoss := ⊤,
      bestThresh := 0,
      fracIdx := 0 }
    (fun p hp => hp) (Or.inl ⟨rfl, rfl⟩)
  constructor
  · intro hex
    have hne : (btLoop fracs (sortData data)
        { classesL := List.replicate nClasses 0,
          classesR := classCounts nClasses data,
          nL := 0,
          nR := (data.length : ℚ),
          bestLoss := ⊤,
          bestThresh := 0,
          fracIdx := 0 }).bestLoss ≠ ⊤ := c2 (Or.inl hex)
    have hgood : GoodThresh (sortData data)
        (determine_best_threshold nClasses fracs data).1 := by
      rcases c1 with ⟨h1, _⟩ | h
      · exact absurd h1 hne
      · exact h
    obtain ⟨ab, hab, habne, f, hf0, hf1, hteq⟩ := hgood
    obtain ⟨i, hi, hg1, hg2⟩ := mem_zip_tail_getD _ ab hab
    have hpair : pairLe ab.1 ab.2 := by
      have h := getD_pairwise_adjacent (sortData data)
        (List.sorted_insertionSort pairLe data) i hi
      rw [hg1, hg2] at h
      exact h
    have hable : ab.1.1 ≤ ab.2.1 := by
      rcases hpair with h | ⟨h, _⟩
      · exact le_of_lt h
      · exact le_of_eq h
    obtain ⟨hmix1, hmix2⟩ := mix_between ab.1.1 ab.2.1 f hable hf0 hf1
    obtain ⟨hmemS1, hmemS2⟩ := List.of_mem_zip hab
    have hm1 : ab.1 ∈ data :=
      (List.perm_insertionSort pairLe data).mem_iff.mp hmemS1
    have hm2 : ab.2 ∈ data :=
      (List.perm_insertionSort pairLe data).mem_iff.mp
        (List.mem_of_mem_tail hmemS2)
    have hmf1 : ab.1.1 ∈ data.map Prod.fst := List.mem_map_of_mem _ hm1
    have hmf2 : ab.2.1 ∈ data.map Prod.fst := List.mem_map_of_mem _ hm2
    refine ⟨⟨ab, hab, habne, f, hf0, hf1, hteq⟩, ?_, ?_⟩
    · refine le_trans (List.minimum_le_of_mem' hmf1) ?_
      rw [WithTop.coe_le_coe, hteq]
      exact hmix1
    · refine le_trans ?_ (List.le_maximum_of_mem' hmf2)
      rw [WithBot.coe_le_coe, hteq]
      exact hmix2
  · intro hall
    obtain ⟨h1, h2⟩ := c3 hall
    constructor
    · show (btLoop fracs (sortData data)
        { classesL := List.replicate nClasses 0,
          classesR := classCounts nClasses data,
          nL := 0,
          nR := (data.length : ℚ),
          bestLoss := ⊤,
          bestThresh := 0,
          fracIdx := 0 }).bestThresh = 0
      rw [h1]
    · show (btLoop fracs (sortData data)
        { classesL := List.replicate nClasses 0,
          classesR := classCounts nClasses data,
          nL := 0,
          nR := (data.length : ℚ),
          bestLoss := ⊤,
          bestThresh := 0,
          fracIdx := 0 }).bestLoss = ⊤
      rw [h2]

/-- C10 witness: two samples with distinct feature values 0 and 1 and the
constant fraction stream 1/2, checked through the theorem. -/
theorem C10_determine_best_threshold_witness :
    ((∃ p ∈ (sortData [((0:ℚ), 0), (1, 1)]).zip
        (sortData [((0:ℚ), 0), (1, 1)]).tail, p.1.1 ≠ p.2.1) →
      GoodThresh (sortData [((0:ℚ), 0), (1, 1)])
          (determine_best_threshold 2 (fun _ => 1/2) [((0:ℚ), 0), (1, 1)]).1
      ∧ ([((0:ℚ), 0), (1, 1)].map Prod.fst).minimum
          ≤ ((determine_best_threshold 2 (fun _ => 1/2)
              [((0:ℚ), 0), (1, 1)]).1 : WithTop ℚ)
      ∧ (((determine_best_threshold 2 (fun _ => 1/2)
              [((0:ℚ), 0), (1, 1)]).1 : WithBot ℚ)
          ≤ ([((0:ℚ), 0), (1, 1)].map Prod.fst).maximum))
    ∧ ((∀ p ∈ (sortData [((0:ℚ), 0), (1, 1)]).zip
        (sortData [((0:ℚ), 0), (1, 1)]).tail, p.1.1 = p.2.1) →
      (determine_best_threshold 2 (fun _ => 1/2) [((0:ℚ), 0), (1, 1)]).1 = 0
      ∧ (determine_best_threshold 2 (fun _ => 1/2) [((0:ℚ), 0), (1, 1)]).2
        = ⊤) :=
  C10_determine_best_threshold 2 (fun _ => 1/2) [((0:ℚ), 0), (1, 1)]
    (fun n => by norm_num)

end PCClassify
